import Mathlib

/-!
Verification development for the pr-bot repository: a shallow embedding of the
commit-presence resolution and release-timeline correlation engine.

The embedding follows the Go sources:
* `internal/ga` (Excel-based parser, the implementation the analyzer links
  against via `ga.NewParser(ExcelFilePath)`): release calendar records,
  version-offset mapping, latest/next GA selection, upcoming-GA selection,
  bare month/day date resolution, and the single-flight background-parse
  protocol.
* `internal/github/client.go`: version-tag family listing, earliest
  containing tag resolution, per-branch commit containment checks.
* `pkg/analyzer/analyzer.go`: the per-branch fan-out that produces one
  `BranchPresence` per discovered branch, the branch cache, and the
  top-level PR analysis pipeline.

Strings are modelled with Lean `String`; Go operates on UTF-8 bytes, which
agrees with the character-level model on all ASCII separators and prefixes
used here.  Timestamps are modelled as integers (an abstract strictly ordered
clock); calendar dates are modelled with explicit year/month/day records and
a proleptic-Gregorian day count, matching Go `time.AddDate` normalization.
Network calls are modelled as oracle parameters giving each call's outcome.
-/

deriving instance DecidableEq for Except

namespace PrBot

/-! ### Character-level string helpers mirroring the Go standard library -/

/-- Character-level model of Go `strings.Split(s, sep)` for a one-character
separator, as an auxiliary recursion over the remaining characters and the
accumulated (reversed) current field. -/
def splitChars (sep : Char) : List Char → List Char → List String
  | [], acc => [String.mk acc.reverse]
  | c :: rest, acc =>
    if c = sep then String.mk acc.reverse :: splitChars sep rest []
    else splitChars sep rest (c :: acc)

/-- Model of Go `strings.Split(version, ".")`. -/
def goSplitDot (s : String) : List String :=
  splitChars '.' s.data []

/-- Character-level list test that `pre` is an initial segment of `s`. -/
def listStartsWith : List Char → List Char → Bool
  | _, [] => true
  | [], _ :: _ => false
  | c :: cs, p :: ps => c = p && listStartsWith cs ps

/-- Model of Go `strings.HasPrefix`. -/
def goStartsWith (s pre : String) : Bool :=
  listStartsWith s.data pre.data

/-- Model of Go `strings.TrimPrefix`. -/
def goTrimPre (s pre : String) : String :=
  if goStartsWith s pre then String.mk (s.data.drop pre.data.length) else s

/-- Digit-accumulator for `goAtoi`; `none` accumulator means no digit seen yet. -/
def parseDigits : List Char → Option Nat → Option Nat
  | [], acc => acc
  | c :: rest, acc =>
    if c.isDigit then parseDigits rest (some (acc.getD 0 * 10 + (c.toNat - 48)))
    else none

/-- Model of Go `strconv.Atoi`: optional sign, at least one digit, nothing
else, and a 64-bit signed range check (Go errors on overflow). -/
def goAtoi (s : String) : Option Int :=
  let signSplit : Bool × List Char :=
    match s.data with
    | '-' :: rest => (true, rest)
    | '+' :: rest => (false, rest)
    | cs => (false, cs)
  match parseDigits signSplit.2 none with
  | none => none
  | some n =>
    let v : Int := if signSplit.1 then -(n : Int) else (n : Int)
    if -9223372036854775808 ≤ v ∧ v ≤ 9223372036854775807 then some v else none

/-! ### Release calendar data model (package `ga`, Excel implementation) -/

/-- Product name constant, package `ga`. -/
def ProductACM : String := "ACM"

/-- Product name constant, package `ga`. -/
def ProductMCE : String := "MCE"

/-- Status constant, package `ga`. -/
def StatusGA : String := "GA"

/-- Status constant, package `ga`. -/
def StatusNextVersion : String := "Next Version"

/-- Status constant, package `ga`. -/
def StatusNotFound : String := "Not Found"

/-- Version mapping constant: MCE minor version is 5 behind ACM. -/
def MCEVersionOffset : Int := 5

/-- `ga.ReleaseInfo`: one calendar row; either or both product versions may be
present (empty string models absence), with an optional GA timestamp. -/
structure ReleaseInfo where
  acmVersion : String
  mceVersion : String
  gaDate : Option Int
  isGA : Bool
deriving Repr, DecidableEq

/-- `Parser.mapReleaseToProductVersion` (Excel implementation): ACM keeps the
release version; MCE subtracts the fixed minor offset when the result is
non-negative, and otherwise falls through to returning the input unchanged. -/
def mapReleaseToProductVersion (releaseVersion product : String) : String :=
  if product = ProductACM then
    releaseVersion
  else if product = ProductMCE then
    match goSplitDot releaseVersion with
    | majorStr :: minorStr :: _ =>
      match goAtoi majorStr, goAtoi minorStr with
      | some major, some minor =>
        let mceMinor := minor - MCEVersionOffset
        if 0 ≤ mceMinor then toString major ++ "." ++ toString mceMinor
        else releaseVersion
      | _, _ => releaseVersion
    | _ => releaseVersion
  else releaseVersion

/-- `Parser.extractMajorMinor`: first two dot-separated components, or the
input itself when there are fewer than two. -/
def extractMajorMinor (version : String) : String :=
  match goSplitDot version with
  | a :: b :: _ => a ++ "." ++ b
  | _ => version

/-- The product-version selection at the head of the loops in
`findLatestAndNextGA` / `findVersionsAfterMergeForProduct`: the loop body
uses the ACM column for product "ACM" when non-empty, the MCE column for
product "MCE" when non-empty, and otherwise skips the row (modelled as ""). -/
def releaseVersionFor (product : String) (release : ReleaseInfo) : String :=
  if product = ProductACM ∧ release.acmVersion ≠ "" then release.acmVersion
  else if product = ProductMCE ∧ release.mceVersion ≠ "" then release.mceVersion
  else ""

/-! ### Latest / next GA selection (`Parser.findLatestAndNextGA`) -/

/-- `models.GAInfo`; the Go zero value has empty strings, nil date and false
flags, which the field defaults reproduce. -/
structure GAInfo where
  version : String := ""
  gaDate : Option Int := none
  isGA : Bool := false
  isInNext : Bool := false
  status : String := ""
deriving Repr, DecidableEq

/-- Loop state of `findLatestAndNextGA`: the current latest/next candidates
and their dates, all starting from Go zero values. -/
structure GaAcc where
  latestGA : GAInfo := {}
  nextGA : GAInfo := {}
  latestGADate : Option Int := none
  nextGADate : Option Int := none
deriving Repr, DecidableEq

/-- The GAInfo built when a past match becomes the latest candidate. -/
def latestInfoFor (product : String) (release : ReleaseInfo) (d : Int) : GAInfo :=
  { version := releaseVersionFor product release, gaDate := some d,
    isGA := true, isInNext := false, status := StatusGA }

/-- The GAInfo built when a future match becomes the next candidate.  The Go
source assigns `StatusNextVersion` in both arms of its inner `mergedAt`
conditional, so the status is unconditionally `StatusNextVersion`. -/
def nextInfoFor (product : String) (release : ReleaseInfo) (d : Int) : GAInfo :=
  { version := releaseVersionFor product release, gaDate := some d,
    isGA := false, isInNext := true, status := StatusNextVersion }

/-- One iteration of the loop body of `findLatestAndNextGA`: skip rows without
a version for the product, without the expected major.minor, or without a GA
date; classify the rest as past (`Before(now)`) or future and keep the most
recent past date / the earliest future date. -/
def gaStep (product expectedMajorMinor : String) (now : Int)
    (s : GaAcc) (release : ReleaseInfo) : GaAcc :=
  let releaseVersion := releaseVersionFor product release
  if releaseVersion = "" then s
  else if extractMajorMinor releaseVersion = expectedMajorMinor then
    match release.gaDate with
    | none => s
    | some d =>
      if d < now then
        match s.latestGADate with
        | none =>
          { s with latestGADate := some d, latestGA := latestInfoFor product release d }
        | some ld =>
          if ld < d then
            { s with latestGADate := some d, latestGA := latestInfoFor product release d }
          else s
      else
        match s.nextGADate with
        | none =>
          { s with nextGADate := some d, nextGA := nextInfoFor product release d }
        | some nd =>
          if d < nd then
            { s with nextGADate := some d, nextGA := nextInfoFor product release d }
          else s
  else s

/-- `Parser.findLatestAndNextGA` (Excel implementation): fold the loop body
over the calendar, then replace empty candidates by the `Not Found` marker.
The `mergedAt` argument is threaded through as in Go but does not influence
the result (the Go conditional on it assigns the same status in both arms). -/
def findLatestAndNextGA (releases : List ReleaseInfo) (product expectedMajorMinor : String)
    (_mergedAt : Option Int) (now : Int) : GAInfo × GAInfo :=
  let s := releases.foldl (gaStep product expectedMajorMinor now) {}
  let latestGA :=
    if s.latestGA.version = "" then
      { version := expectedMajorMinor, status := StatusNotFound : GAInfo }
    else s.latestGA
  let nextGA :=
    if s.nextGA.version = "" then
      { version := expectedMajorMinor, status := StatusNotFound : GAInfo }
    else s.nextGA
  (latestGA, nextGA)

/-! ### Upcoming GA selection (`Parser.GetUpcomingGAVersions`) -/

/-- `models.UpcomingGA`. -/
structure UpcomingGA where
  product : String
  version : String
  gaDate : Option Int
deriving Repr, DecidableEq

/-- One iteration of `findVersionsAfterMergeForProduct`: emit an `UpcomingGA`
for a row with the product's version, a matching major.minor, and a GA date
strictly after the merge date. -/
def upcomingOf (product expectedMajorMinor : String) (mergeDate : Int)
    (release : ReleaseInfo) : Option UpcomingGA :=
  let releaseVersion := releaseVersionFor product release
  if releaseVersion = "" then none
  else if extractMajorMinor releaseVersion = expectedMajorMinor then
    match release.gaDate with
    | none => none
    | some d =>
      if mergeDate < d then some ⟨product, releaseVersion, some d⟩ else none
  else none

/-- `Parser.findVersionsAfterMergeForProduct`. -/
def findVersionsAfterMergeForProduct (releases : List ReleaseInfo)
    (product expectedMajorMinor : String) (mergeDate : Int) : List UpcomingGA :=
  releases.filterMap (upcomingOf product expectedMajorMinor mergeDate)

/-- Sort key of the `sort.Slice` comparator in `GetUpcomingGAVersions`: a nil
GA date sorts last, otherwise dates sort ascending. -/
def gaKey (g : UpcomingGA) : WithTop Int :=
  match g.gaDate with
  | none => ⊤
  | some d => (d : WithTop Int)

/-- The non-strict order induced by the Go comparator (`Before` on dates with
nil last); `sort.Slice` produces a permutation sorted for this relation. -/
def gaDateLe (a b : UpcomingGA) : Prop := gaKey a ≤ gaKey b

instance : DecidableRel gaDateLe :=
  fun a b => inferInstanceAs (Decidable (gaKey a ≤ gaKey b))

instance : IsTotal UpcomingGA gaDateLe :=
  ⟨fun a b => le_total (gaKey a) (gaKey b)⟩

instance : IsTrans UpcomingGA gaDateLe :=
  ⟨fun _ _ _ h1 h2 => le_trans h1 h2⟩

/-- The expected product version computed at the head of `GetGAStatus` /
`GetUpcomingGAVersions`: strip the `release-ocm-` branch prefix and apply the
offset mapping. -/
def expectedVersionFor (version product : String) : String :=
  mapReleaseToProductVersion (goTrimPre version "release-ocm-") product

/-- `Parser.GetUpcomingGAVersions` after `waitForData` succeeded: nil merge
date short-circuits to no entries; otherwise collect per-product records
strictly after the merge date, sort the combined pool by date (`sort.Slice`
is an unspecified sorted permutation; insertion sort realizes one), and take
the first record of each product in sorted order, ACM entry first. -/
def getUpcomingGAVersions (allReleases : List ReleaseInfo) (version : String)
    (mergedAt : Option Int) : List UpcomingGA :=
  match mergedAt with
  | none => []
  | some m =>
    let expectedACMVersion := expectedVersionFor version ProductACM
    let expectedMCEVersion := expectedVersionFor version ProductMCE
    let allGAsAfterMerge :=
      findVersionsAfterMergeForProduct allReleases ProductACM expectedACMVersion m
        ++ findVersionsAfterMergeForProduct allReleases ProductMCE expectedMCEVersion m
    let sortedGAs := allGAsAfterMerge.insertionSort gaDateLe
    let closestACM := sortedGAs.find? (fun g => g.product = ProductACM)
    let closestMCE := sortedGAs.find? (fun g => g.product = ProductMCE)
    closestACM.toList ++ closestMCE.toList

/-! ### Calendar dates and the bare month/day heuristic
(`Parser.parseDateFromText`, bare `M/D` arm) -/

/-- Gregorian leap-year test (Go `time` semantics, CE years). -/
def isLeapYear (y : Int) : Bool :=
  y % 4 = 0 && (y % 100 ≠ 0 || y % 400 = 0)

/-- Number of days in a month. -/
def daysInMonth (y m : Int) : Int :=
  if m = 2 then (if isLeapYear y then 29 else 28)
  else if m = 4 ∨ m = 6 ∨ m = 9 ∨ m = 11 then 30
  else 31

/-- Validity of a calendar date; Go `time.Parse` rejects exactly the month/day
combinations outside this range. -/
def validDate (y m d : Int) : Bool :=
  1 ≤ m && m ≤ 12 && 1 ≤ d && d ≤ daysInMonth y m

/-- Proleptic-Gregorian day count of a civil date (days since 1970-01-01);
comparisons of Go `time.Time` date parts agree with comparisons of this
count.  All intermediate divisions act on non-negative operands for CE
years, where Lean and Go division agree. -/
def daysFromCivil (y m d : Int) : Int :=
  let yAdj := if m ≤ 2 then y - 1 else y
  let era := (if 0 ≤ yAdj then yAdj else yAdj - 399) / 400
  let yoe := yAdj - era * 400
  let mp := (m + 9) % 12
  let doy := (153 * mp + 2) / 5 + d - 1
  let doe := yoe * 365 + yoe / 4 - yoe / 100 + doy
  era * 146097 + doe - 719468

/-- A Go `time.Time` reference instant, decomposed as the calendar date plus
the seconds elapsed within that day. -/
structure GoTime where
  year : Int
  month : Int
  day : Int
  secs : Int
deriving Repr, DecidableEq

/-- A parsed calendar date (midnight UTC in Go). -/
structure GoDate where
  year : Int
  month : Int
  day : Int
deriving Repr, DecidableEq

/-- Day count of `t.AddDate(0, k, 0)` under Go normalization: the month is
normalized by floor division and a day overflowing the target month rolls
into the following month, exactly as Go computes dates from a day total. -/
def goAddDateMonths (t : GoTime) (k : Int) : Int :=
  let mm := t.month - 1 + k
  let y := t.year + Int.fdiv mm 12
  let m := Int.fmod mm 12 + 1
  daysFromCivil y m 1 + (t.day - 1)

/-- The condition of the heuristic in `parseDateFromText`: the current-year
placement of the bare date is before `now.AddDate(0, -6, 0)`.  The parsed
date sits at midnight, so on equal days the comparison reduces to the
time-of-day of `now`. -/
def bareDateTooOld (monthNum dayNum : Int) (now : GoTime) : Bool :=
  let dn := daysFromCivil now.year monthNum dayNum
  let sixMonthsAgo := goAddDateMonths now (-6)
  dn < sixMonthsAgo || (dn = sixMonthsAgo && 0 < now.secs)

/-- The bare `month/day` arm of `Parser.parseDateFromText` (the regex
`^\d{1,2}/\d{1,2}$` already matched, so both numbers have 1-2 digits): parse
with the current year (failure of `time.Parse` = invalid date = `none`);
if that placement is before six months ago, try the next year, and on a
parse failure there fall back to the current-year date. -/
def parseBareMonthDay (monthNum dayNum : Int) (now : GoTime) : Option GoDate :=
  if validDate now.year monthNum dayNum then
    if bareDateTooOld monthNum dayNum now then
      if validDate (now.year + 1) monthNum dayNum then
        some ⟨now.year + 1, monthNum, dayNum⟩
      else some ⟨now.year, monthNum, dayNum⟩
    else some ⟨now.year, monthNum, dayNum⟩
  else none

/-! ### Tag resolution (`internal/github/client.go`) -/

/-- `Client.GetVersionTags`: tags whose name starts with the version prefix
followed by a dot (restricting to the immediate child version family). -/
def getVersionTags (tags : List String) (versionPre : String) : List String :=
  tags.filter (fun tagName => goStartsWith tagName (versionPre ++ "."))

/-- `findEarliestVersion`: minimum under Go string comparison (the Lean
`String` order agrees with Go byte order on these ASCII tag names); an empty
input yields the empty string as in the Go guard. -/
def findEarliestVersion : List String → String
  | [] => ""
  | t :: rest => rest.foldl (fun earliest tag => if tag < earliest then tag else earliest) t

/-- Per-tag containment outcome, modelling `Client.CheckCommitInTag` for the
fixed commit: `none` is a failed listing (the tag is skipped), `some b` is a
successful check with result `b`. -/
def tagFound (containsCommit : String → Option Bool) (t : String) : Bool :=
  match containsCommit t with
  | some true => true
  | _ => false

/-- `Client.FindCommitInVersionTags` after the tag listing succeeded: collect
the family tags whose check succeeded with `found`, and collapse a non-empty
collection to the single earliest tag. -/
def findCommitInVersionTags (tags : List String) (containsCommit : String → Option Bool)
    (versionPre : String) : List String :=
  let candidateTags := getVersionTags tags versionPre
  let foundTags := candidateTags.filter (tagFound containsCommit)
  if 0 < foundTags.length then [findEarliestVersion foundTags] else foundTags

/-! ### Per-branch presence checking and the analyzer fan-out
(`pkg/analyzer/analyzer.go`, `internal/github/client.go`) -/

/-- `github.BranchInfo`. -/
structure BranchInfo where
  name : String
  pattern : String
  version : String
deriving Repr, DecidableEq

/-- Outcomes of the two repository-host calls made by
`Client.CheckCommitInBranch` for one branch: `GetCommit` (yielding the
committer date when the commit and committer records are present) and
`CompareCommits` (yielding `aheadBy`). -/
structure BranchOracle where
  getCommitDate : Except String (Option Int)
  compareAheadBy : Except String Int
deriving Repr, DecidableEq

/-- `Client.CheckCommitInBranch`: a `GetCommit` failure is an error with
`found = false`; a comparison failure is `found = false` without error; and
otherwise the commit is in the branch exactly when `aheadBy = 0`, with the
committer date reported as the merge time only when found. -/
def checkCommitInBranch (o : BranchOracle) : Bool × Option Int × Option String :=
  match o.getCommitDate with
  | .error e => (false, none, some ("failed to get commit: " ++ e))
  | .ok commitDate =>
    match o.compareAheadBy with
    | .error _ => (false, none, none)
    | .ok aheadBy =>
      let found := aheadBy = 0
      let mergedAt := if found then commitDate else none
      (found, mergedAt, none)

/-- `models.GAStatus`. -/
structure GAStatus where
  acm : GAInfo := {}
  mce : GAInfo := {}
  nextACM : GAInfo := {}
  nextMCE : GAInfo := {}
deriving Repr, DecidableEq

/-- `Parser.GetGAStatus` after `waitForData` succeeded (the remaining body
cannot fail): strip the branch prefix, map to both expected product versions,
and run the latest/next selection per product. -/
def getGAStatusData (allReleases : List ReleaseInfo) (version : String)
    (mergedAt : Option Int) (now : Int) : GAStatus :=
  let expectedACMVersion := expectedVersionFor version ProductACM
  let expectedMCEVersion := expectedVersionFor version ProductMCE
  let acmPair := findLatestAndNextGA allReleases ProductACM expectedACMVersion mergedAt now
  let mcePair := findLatestAndNextGA allReleases ProductMCE expectedMCEVersion mergedAt now
  { acm := acmPair.1, mce := mcePair.1, nextACM := acmPair.2, nextMCE := mcePair.2 }

/-- Process-wide inputs shared by every branch worker: the calendar-ingestion
outcome (`waitForData`), the current time, the configured repository name,
the tag-listing outcome, and the per-tag containment oracle. -/
structure GlobalEnv where
  releasesData : Except String (List ReleaseInfo)
  now : Int
  repository : String
  tagsData : Except String (List String)
  tagContainsCommit : String → Option Bool

/-- `models.BranchPresence`. -/
structure BranchPresence where
  branchName : String
  pattern : String
  version : String
  mergedAt : Option Int
  found : Bool
  releasedVersions : List String
  gaStatus : GAStatus
  upcomingGAs : List UpcomingGA
deriving Repr, DecidableEq

/-- Body of the per-branch goroutine in `Analyzer.AnalyzePRWithOptions`
(configuration without a GitLab client, so the MCE snapshot validation guard
is skipped): check containment, compute GA facts for `release-ocm-` branches
(errors degrade to zero values / no entries), resolve exact release tags for
version-prefixed branches when found, and assemble the presence record. -/
def branchWorker (g : GlobalEnv) (o : BranchOracle) (branch : BranchInfo) : BranchPresence :=
  let check := checkCommitInBranch o
  let found := check.1
  let mergedAt := check.2.1
  let gaStatus : GAStatus :=
    if branch.pattern = "release-ocm-" then
      match g.releasesData with
      | .ok allReleases => getGAStatusData allReleases branch.name mergedAt g.now
      | .error _ => {}
    else {}
  let upcomingGAs : List UpcomingGA :=
    if branch.pattern = "release-ocm-" then
      match mergedAt with
      | none => []
      | some _ =>
        match g.releasesData with
        | .ok allReleases => getUpcomingGAVersions allReleases branch.name mergedAt
        | .error _ => []
    else []
  let releasedVersions : List String :=
    if found ∧ (branch.pattern = "v" ∨
        (branch.pattern = "releases/v" ∧ g.repository ≠ "assisted-installer-ui")) then
      match g.tagsData with
      | .ok tags => findCommitInVersionTags tags g.tagContainsCommit branch.name
      | .error _ => []
    else []
  { branchName := branch.name, pattern := branch.pattern, version := branch.version,
    mergedAt := mergedAt, found := found, releasedVersions := releasedVersions,
    gaStatus := gaStatus, upcomingGAs := upcomingGAs }

/-- The presence-check fan-out: one worker per discovered branch, each
writing the slot at its own index of the pre-sized results container; after
the wait-for-all barrier this equals the index-preserving map of the worker
over the catalog. -/
def analyzeBranchPresences (g : GlobalEnv) (oracleFor : String → BranchOracle)
    (branchInfos : List BranchInfo) : List BranchPresence :=
  branchInfos.map (fun b => branchWorker g (oracleFor b.name) b)

/-! ### Branch cache (`Analyzer.getBranches`) -/

/-- The analyzer's branch-cache state plus a counter of discovery
(`GetAllReleaseBranches`) calls performed so far. -/
structure CacheState where
  branchCache : List BranchInfo
  fetchCalls : Nat
deriving Repr, DecidableEq

/-- `Analyzer.getBranches`: a populated cache (length > 0) is returned as a
copy without any discovery call; otherwise one discovery call runs, a
successful result is cached and returned, and a failure leaves the cache
empty. -/
def getBranches (fetch : Except String (List BranchInfo)) (s : CacheState) :
    Except String (List BranchInfo) × CacheState :=
  if 0 < s.branchCache.length then (.ok s.branchCache, s)
  else
    match fetch with
    | .error e =>
      (.error ("failed to get release branches: " ++ e), ⟨s.branchCache, s.fetchCalls + 1⟩)
    | .ok branchInfos => (.ok branchInfos, ⟨branchInfos, s.fetchCalls + 1⟩)

/-! ### PR metadata and the analysis pipeline -/

/-- The pull-request record fetched from the repository host. -/
structure GoPR where
  number : Int
  title : String
  mergeCommitSHA : String
  mergedAt : Option Int
  baseRef : String
  htmlURL : String
deriving Repr, DecidableEq

/-- `models.PRInfo`. -/
structure PRInfo where
  number : Int
  title : String
  hash : String
  mergedAt : Option Int
  mergedInto : String
  url : String
deriving Repr, DecidableEq

/-- `Client.GetPRInfo`: propagate a fetch failure; reject a pull request
without a merge timestamp; otherwise build the `PRInfo`. -/
def getPRInfo (prFetch : Except String GoPR) : Except String PRInfo :=
  match prFetch with
  | .error e => .error ("failed to get PR: " ++ e)
  | .ok pr =>
    match pr.mergedAt with
    | none => .error "PR is not merged"
    | some _ =>
      .ok { number := pr.number, title := pr.title, hash := pr.mergeCommitSHA,
            mergedAt := pr.mergedAt, mergedInto := pr.baseRef, url := pr.htmlURL }

/-- `models.PRAnalysisResult` (JIRA analysis out of scope: modelled for the
configuration without a JIRA client / with `skipJiraAnalysis`). -/
structure PRAnalysisResult where
  pr : PRInfo
  releaseBranches : List BranchPresence
deriving Repr, DecidableEq

/-- Observable outcome of one `AnalyzePRWithOptions` call: the returned value
or error, the branch-cache state afterwards (whose `fetchCalls` counts
discovery calls), and the number of per-branch presence checks spawned. -/
structure AnalyzeOutcome where
  result : Except String PRAnalysisResult
  cache : CacheState
  presenceChecks : Nat
deriving Repr, DecidableEq

/-- `Analyzer.AnalyzePRWithOptions`: fetch PR metadata (fatal on error),
discover branches through the cache (fatal on error), then fan out one
presence check per branch and aggregate in catalog order. -/
def analyzePRWithOptions (prFetch : Except String GoPR)
    (fetch : Except String (List BranchInfo)) (g : GlobalEnv)
    (oracleFor : String → BranchOracle) (s : CacheState) : AnalyzeOutcome :=
  match getPRInfo prFetch with
  | .error e => ⟨.error ("failed to get PR info: " ++ e), s, 0⟩
  | .ok prInfo =>
    match getBranches fetch s with
    | (.error e, s1) => ⟨.error e, s1, 0⟩
    | (.ok branchInfos, s1) =>
      ⟨.ok ⟨prInfo, analyzeBranchPresences g oracleFor branchInfos⟩, s1, branchInfos.length⟩

/-! ### Single-flight calendar ingestion (`Parser.backgroundParse` /
`Parser.waitForData`) -/

/-- `ga.parsedData`: the cache written once by the background parser;
`allReleases` is built as the concatenation of the two tabs. -/
structure ParsedData where
  inProgressReleases : List ReleaseInfo
  completedReleases : List ReleaseInfo
  allReleases : List ReleaseInfo
deriving Repr, DecidableEq

/-- Protocol state of the parser: how many times the ingestion body ran, and
`none` while `parseChannel` is open, `some outcome` once it is closed (the
outcome being the terminal `parseError` or the populated cache). -/
structure GaParserState where
  ingestRuns : Nat
  parsed : Option (Except String ParsedData)
deriving Repr, DecidableEq

/-- Initial parser state: channel open, nothing ran. -/
def gaParserInit : GaParserState := ⟨0, none⟩

/-- One invocation of `Parser.backgroundParse` given the outcome the
ingestion body would produce: `parseOnce.Do` makes it a no-op once the body
has run; otherwise the body runs exactly once, records either the terminal
error or the full cache (`allReleases` = first tab ++ second tab), and closes
the channel. -/
def backgroundParse (ingest : Except String (List ReleaseInfo × List ReleaseInfo))
    (s : GaParserState) : GaParserState :=
  match s.parsed with
  | some _ => s
  | none =>
    match ingest with
    | .error e => ⟨s.ingestRuns + 1, some (.error e)⟩
    | .ok (inProgressReleases, completedReleases) =>
      ⟨s.ingestRuns + 1,
       some (.ok ⟨inProgressReleases, completedReleases,
                  inProgressReleases ++ completedReleases⟩)⟩

/-- `Parser.waitForData`: blocked (`none`) while the channel is open; once it
is closed, the terminal error or the cached data (the Go nil-cache branch is
unreachable because the success path always populates the cache before
closing the channel). -/
def waitForData (s : GaParserState) : Option (Except String ParsedData) :=
  s.parsed

/-! ### Specification predicates used by the theorems -/

/-- A calendar row that matches the expected major.minor for the product and
carries a GA date strictly before `now` (a "latest" candidate). -/
def IsPastMatch (product expectedMajorMinor : String) (now : Int)
    (r : ReleaseInfo) (d : Int) : Prop :=
  releaseVersionFor product r ≠ "" ∧
  extractMajorMinor (releaseVersionFor product r) = expectedMajorMinor ∧
  r.gaDate = some d ∧ d < now

/-- A calendar row that matches the expected major.minor for the product and
carries a GA date not before `now` (a "next" candidate). -/
def IsFutureMatch (product expectedMajorMinor : String) (now : Int)
    (r : ReleaseInfo) (d : Int) : Prop :=
  releaseVersionFor product r ≠ "" ∧
  extractMajorMinor (releaseVersionFor product r) = expectedMajorMinor ∧
  r.gaDate = some d ∧ ¬ d < now

instance (product expectedMajorMinor : String) (now : Int) (r : ReleaseInfo) (d : Int) :
    Decidable (IsPastMatch product expectedMajorMinor now r d) :=
  decidable_of_iff
    (releaseVersionFor product r ≠ "" ∧
      extractMajorMinor (releaseVersionFor product r) = expectedMajorMinor ∧
      r.gaDate = some d ∧ d < now) Iff.rfl

instance (product expectedMajorMinor : String) (now : Int) (r : ReleaseInfo) (d : Int) :
    Decidable (IsFutureMatch product expectedMajorMinor now r d) :=
  decidable_of_iff
    (releaseVersionFor product r ≠ "" ∧
      extractMajorMinor (releaseVersionFor product r) = expectedMajorMinor ∧
      r.gaDate = some d ∧ ¬ d < now) Iff.rfl

/-! ### C1: version offset mapping -/

/-- C1 counterexample: the claim asserts that a branch version whose minor
component is smaller than the offset (such as `2.4`) is rejected and
reported as unsupported.  In the code, `mapReleaseToProductVersion` has no
rejection channel at all and silently returns the release version unchanged
(product A's numbering) for the MCE product, so the mapping is a definite
non-rejected answer. -/
theorem c1_negative_offset_counterexample :
    mapReleaseToProductVersion "2.4" ProductMCE = "2.4" := by decide

/-- C1 amended: for every release version splitting into numeric
`major.minor` components, the expected MCE version is `major.(minor - 5)`
whenever that minor is non-negative (in particular `2.14` yields `2.9`);
when `minor - 5` would be negative the function silently returns the release
version unchanged instead of rejecting it. -/
theorem c1_mce_offset_mapping (releaseVersion majorStr minorStr : String)
    (rest : List String) (major minor : Int)
    (hsplit : goSplitDot releaseVersion = majorStr :: minorStr :: rest)
    (hmajor : goAtoi majorStr = some major) (hminor : goAtoi minorStr = some minor) :
    mapReleaseToProductVersion releaseVersion ProductMCE =
      if 0 ≤ minor - MCEVersionOffset then
        toString major ++ "." ++ toString (minor - MCEVersionOffset)
      else releaseVersion := by
  unfold mapReleaseToProductVersion
  rw [if_neg (by decide), if_pos rfl, hsplit]
  simp only [hmajor, hminor]

/-- C1 witness: the mapping of `2.14` evaluates to `2.9`. -/
theorem c1_mce_offset_mapping_witness :
    mapReleaseToProductVersion "2.14" ProductMCE = "2.9" :=
  (c1_mce_offset_mapping "2.14" "2" "14" [] 2 14 (by decide) (by decide) (by decide)).trans
    (by decide)

/-! ### C5: bare month/day date resolution -/

/-- C5 counterexample: for the text `2/29` evaluated when now is 2024-12-01,
the current-year placement (2024-02-29, valid in the leap year 2024) is more
than six months in the past, so the claim demands the next year; the code's
next-year parse fails (2025-02-29 does not exist) and the current-year date
is returned instead. -/
theorem c5_bare_date_counterexample :
    bareDateTooOld 2 29 ⟨2024, 12, 1, 0⟩ = true ∧
    parseBareMonthDay 2 29 ⟨2024, 12, 1, 0⟩ = some ⟨2024, 2, 29⟩ := by decide

/-- C5 amended: a bare `M/D` text valid in the current year resolves to the
current year, unless the current-year placement is more than six months
before now and `M/D` is also a valid date in the next year, in which case
the next year is taken (so February 29 never rolls into a non-leap year). -/
theorem c5_bare_date_resolution (monthNum dayNum : Int) (now : GoTime)
    (h : validDate now.year monthNum dayNum = true) :
    parseBareMonthDay monthNum dayNum now =
      some ⟨(if bareDateTooOld monthNum dayNum now ∧
              validDate (now.year + 1) monthNum dayNum then now.year + 1 else now.year),
            monthNum, dayNum⟩ := by
  unfold parseBareMonthDay
  rw [if_pos h]
  by_cases h1 : bareDateTooOld monthNum dayNum now
  · rw [if_pos h1]
    by_cases h2 : validDate (now.year + 1) monthNum dayNum
    · rw [if_pos h2, if_pos ⟨h1, h2⟩]
    · rw [if_neg h2, if_neg (fun hc => h2 hc.2)]
  · rw [if_neg h1, if_neg (fun hc => h1 hc.1)]

/-- C5 witness: the two dated examples of the claim, derived from the
amended theorem. -/
theorem c5_bare_date_resolution_witness :
    parseBareMonthDay 1 15 ⟨2025, 7, 1, 0⟩ = some ⟨2025, 1, 15⟩ ∧
    parseBareMonthDay 1 15 ⟨2025, 12, 1, 0⟩ = some ⟨2026, 1, 15⟩ :=
  ⟨(c5_bare_date_resolution 1 15 ⟨2025, 7, 1, 0⟩ (by decide)).trans (by decide),
   (c5_bare_date_resolution 1 15 ⟨2025, 12, 1, 0⟩ (by decide)).trans (by decide)⟩

/-! ### C8: branch catalog idempotence -/

/-- C8 counterexample: when the first discovery call returns an empty branch
list, the result is not cached (the cache test is `length > 0`), so a second
catalog call performs an additional discovery call (the counter reaches 2),
contradicting the claimed zero additional discovery calls after a first
fetch. -/
theorem c8_empty_catalog_counterexample :
    getBranches (.ok []) ⟨[], 0⟩ = (.ok [], ⟨[], 1⟩) ∧
    getBranches (.ok []) ⟨[], 1⟩ = (.ok [], ⟨[], 2⟩) := by decide

/-- C8 amended: once a catalog call has succeeded with a non-empty branch
list, a second call returns a structurally equal result and performs zero
additional discovery calls (the state, including the discovery-call counter,
is unchanged), whatever the discovery endpoint would return the second
time. -/
theorem c8_branch_cache_idempotent (s : CacheState)
    (fetch fetch2 : Except String (List BranchInfo)) (bs : List BranchInfo)
    (h : (getBranches fetch s).1 = .ok bs) (hne : bs ≠ []) :
    getBranches fetch2 (getBranches fetch s).2 = (.ok bs, (getBranches fetch s).2) := by
  unfold getBranches at h ⊢
  by_cases hc : 0 < s.branchCache.length
  · rw [if_pos hc] at h ⊢
    cases h
    rw [if_pos hc]
  · rw [if_neg hc] at h ⊢
    cases fetch with
    | error e => exact absurd h (by simp)
    | ok bs2 =>
      simp only [Except.ok.injEq] at h
      subst h
      have hlen : 0 < bs2.length := List.length_pos.mpr hne
      rw [if_pos hlen]

/-- C8 witness: after caching one branch, a second call returns the cached
snapshot even though the discovery endpoint now fails. -/
theorem c8_branch_cache_idempotent_witness :
    getBranches (.error "listing down")
        (getBranches (.ok [⟨"v2.40", "v", "2.40"⟩]) ⟨[], 0⟩).2 =
      (.ok [⟨"v2.40", "v", "2.40"⟩],
        (getBranches (.ok [⟨"v2.40", "v", "2.40"⟩]) ⟨[], 0⟩).2) :=
  c8_branch_cache_idempotent ⟨[], 0⟩ (.ok [⟨"v2.40", "v", "2.40"⟩]) (.error "listing down")
    [⟨"v2.40", "v", "2.40"⟩] (by decide) (by decide)

/-! ### C10: unmerged change is a hard error -/

/-- C10: when the fetched pull-request metadata carries no merge timestamp,
the analysis fails with an error before any branch discovery (the cache
state, including the discovery-call counter, is untouched) and before any
presence check (zero checks spawned), returning no analysis result. -/
theorem c10_unmerged_pr_hard_error (pr : GoPR) (fetch : Except String (List BranchInfo))
    (g : GlobalEnv) (oracleFor : String → BranchOracle) (s : CacheState)
    (h : pr.mergedAt = none) :
    analyzePRWithOptions (.ok pr) fetch g oracleFor s =
      ⟨.error "failed to get PR info: PR is not merged", s, 0⟩ := by
  simp only [analyzePRWithOptions, getPRInfo, h]
  rfl

/-- C10 witness: a concrete unmerged pull request is rejected with the cache
untouched and zero presence checks. -/
theorem c10_unmerged_pr_hard_error_witness :
    analyzePRWithOptions (.ok ⟨7170, "fix", "abc123", none, "master", "url"⟩)
        (.ok [⟨"v2.40", "v", "2.40"⟩])
        ⟨.ok [], 0, "assisted-service", .ok [], fun _ => none⟩
        (fun _ => ⟨.ok none, .ok 0⟩) ⟨[], 0⟩ =
      ⟨.error "failed to get PR info: PR is not merged", ⟨[], 0⟩, 0⟩ :=
  c10_unmerged_pr_hard_error ⟨7170, "fix", "abc123", none, "master", "url"⟩
    (.ok [⟨"v2.40", "v", "2.40"⟩]) ⟨.ok [], 0, "assisted-service", .ok [], fun _ => none⟩
    (fun _ => ⟨.ok none, .ok 0⟩) ⟨[], 0⟩ rfl

/-! ### C9: single-flight calendar ingestion -/

/-- Invariant of the single-flight protocol state: the ingestion body ran at
most once, it never ran while the channel is still open, and a successful
completion caches the full concatenation of both parsed tabs. -/
def GaStateOK (s : GaParserState) : Prop :=
  s.ingestRuns ≤ 1 ∧ (s.parsed = none → s.ingestRuns = 0) ∧
  ∀ d, s.parsed = some (.ok d) →
    d.allReleases = d.inProgressReleases ++ d.completedReleases

theorem backgroundParse_preserves_ok
    (a : Except String (List ReleaseInfo × List ReleaseInfo)) (s : GaParserState)
    (h : GaStateOK s) : GaStateOK (backgroundParse a s) := by
  obtain ⟨h1, h2, h3⟩ := h
  cases hp : s.parsed with
  | some r =>
    have heq : backgroundParse a s = s := by unfold backgroundParse; rw [hp]
    rw [heq]
    exact ⟨h1, h2, h3⟩
  | none =>
    have h0 := h2 hp
    cases a with
    | error e =>
      have heq : backgroundParse (.error e) s = ⟨s.ingestRuns + 1, some (.error e)⟩ := by
        unfold backgroundParse; rw [hp]
      rw [heq]
      exact ⟨by show s.ingestRuns + 1 ≤ 1; omega, fun hcon => by simp at hcon,
        fun d hd => by simp at hd⟩
    | ok p =>
      obtain ⟨ip, comp⟩ := p
      have heq : backgroundParse (.ok (ip, comp)) s =
          ⟨s.ingestRuns + 1, some (.ok ⟨ip, comp, ip ++ comp⟩)⟩ := by
        unfold backgroundParse; rw [hp]
      rw [heq]
      refine ⟨by show s.ingestRuns + 1 ≤ 1; omega, fun hcon => by simp at hcon, fun d hd => ?_⟩
      simp only [Option.some.injEq, Except.ok.injEq] at hd
      rw [← hd]

theorem foldl_backgroundParse_ok
    (attempts : List (Except String (List ReleaseInfo × List ReleaseInfo))) :
    ∀ s : GaParserState, GaStateOK s →
      GaStateOK (attempts.foldl (fun s a => backgroundParse a s) s) := by
  induction attempts with
  | nil => intro s h; exact h
  | cons a t ih => intro s h; exact ih _ (backgroundParse_preserves_ok a s h)

/-- C9: for every sequence of invocations of the background-parse body
(modelling any interleaving of spawned parsers with the outcome each run
would produce), the ingestion body runs at most once per process lifetime,
and once the completion channel is closed every caller of `waitForData`
observes either the terminal ingestion error or the fully parsed release
list (both tabs concatenated) — never a partial result and never neither. -/
theorem c9_single_flight_ingestion
    (attempts : List (Except String (List ReleaseInfo × List ReleaseInfo))) :
    (attempts.foldl (fun s a => backgroundParse a s) gaParserInit).ingestRuns ≤ 1 ∧
    (∀ d, waitForData (attempts.foldl (fun s a => backgroundParse a s) gaParserInit) =
        some (.ok d) → d.allReleases = d.inProgressReleases ++ d.completedReleases) ∧
    (waitForData (attempts.foldl (fun s a => backgroundParse a s) gaParserInit) = none ∨
      (∃ e, waitForData (attempts.foldl (fun s a => backgroundParse a s) gaParserInit) =
        some (.error e)) ∨
      (∃ d, waitForData (attempts.foldl (fun s a => backgroundParse a s) gaParserInit) =
        some (.ok d))) := by
  have hok : GaStateOK (attempts.foldl (fun s a => backgroundParse a s) gaParserInit) :=
    foldl_backgroundParse_ok attempts gaParserInit
      ⟨by decide, fun _ => rfl, fun d hd => by simp [gaParserInit] at hd⟩
  refine ⟨hok.1, fun d hd => hok.2.2 d hd, ?_⟩
  cases hp : waitForData (attempts.foldl (fun s a => backgroundParse a s) gaParserInit) with
  | none => exact Or.inl rfl
  | some r =>
    cases r with
    | error e => exact Or.inr (Or.inl ⟨e, rfl⟩)
    | ok d => exact Or.inr (Or.inr ⟨d, rfl⟩)

/-- C9 witness: a concrete trace with a second (losing) invocation still runs
ingestion only once. -/
theorem c9_single_flight_ingestion_witness :
    (([.ok ([⟨"2.14.1", "2.9.1", some 100, true⟩], [⟨"2.13.3", "2.8.3", some 50, true⟩]),
       .error "sheet unreachable"] :
      List (Except String (List ReleaseInfo × List ReleaseInfo))).foldl
        (fun s a => backgroundParse a s) gaParserInit).ingestRuns ≤ 1 :=
  (c9_single_flight_ingestion _).1

/-! ### C3: earliest containing tag -/

theorem foldl_min_string_spec (rest : List String) :
    ∀ t : String,
      (rest.foldl (fun earliest tag => if tag < earliest then tag else earliest) t ∈
        t :: rest) ∧
      ∀ x ∈ t :: rest,
        rest.foldl (fun earliest tag => if tag < earliest then tag else earliest) t ≤ x := by
  induction rest with
  | nil => intro t; simp
  | cons a l ih =>
    intro t
    rw [List.foldl_cons]
    by_cases hat : a < t
    · rw [if_pos hat]
      obtain ⟨hmem, hle⟩ := ih a
      constructor
      · exact List.mem_cons.mpr (Or.inr hmem)
      · intro x hx
        rw [List.mem_cons] at hx
        rcases hx with rfl | hx
        · exact le_trans (hle a (List.mem_cons_self a l)) (le_of_lt hat)
        · exact hle x hx
    · rw [if_neg hat]
      obtain ⟨hmem, hle⟩ := ih t
      constructor
      · rw [List.mem_cons] at hmem
        rcases hmem with h | h
        · exact List.mem_cons.mpr (Or.inl h)
        · exact List.mem_cons.mpr (Or.inr (List.mem_cons.mpr (Or.inr h)))
      · intro x hx
        rw [List.mem_cons] at hx
        rcases hx with rfl | hx
        · exact hle x (List.mem_cons_self x l)
        · rw [List.mem_cons] at hx
          rcases hx with rfl | hx
          · exact le_trans (hle t (List.mem_cons_self t l)) (not_lt.mp hat)
          · exact hle x (List.mem_cons.mpr (Or.inr hx))

theorem tagFound_iff (containsCommit : String → Option Bool) (t : String) :
    tagFound containsCommit t = true ↔ containsCommit t = some true := by
  unfold tagFound
  cases h : containsCommit t with
  | none => simp
  | some b => cases b <;> simp

/-- C3: tag resolution over the immediate child family of a version prefix
returns either the empty result, exactly when no family tag's containment
check succeeded with `found`, or exactly one tag — a containing family tag
that is minimal in the tag order among all containing family tags. -/
theorem c3_earliest_containing_tag (tags : List String)
    (containsCommit : String → Option Bool) (versionPre : String) :
    (findCommitInVersionTags tags containsCommit versionPre = [] ∧
      ∀ t ∈ getVersionTags tags versionPre, containsCommit t ≠ some true) ∨
    (∃ e, findCommitInVersionTags tags containsCommit versionPre = [e] ∧
      e ∈ getVersionTags tags versionPre ∧ containsCommit e = some true ∧
      ∀ t ∈ getVersionTags tags versionPre, containsCommit t = some true → e ≤ t) := by
  unfold findCommitInVersionTags
  cases hf : (getVersionTags tags versionPre).filter (tagFound containsCommit) with
  | nil =>
    left
    refine ⟨by simp [hf], fun t ht hc => ?_⟩
    have : t ∈ (getVersionTags tags versionPre).filter (tagFound containsCommit) :=
      List.mem_filter.mpr ⟨ht, (tagFound_iff containsCommit t).mpr hc⟩
    rw [hf] at this
    exact absurd this (List.not_mem_nil t)
  | cons a l =>
    right
    obtain ⟨hmem, hle⟩ := foldl_min_string_spec l a
    have hmemf : findEarliestVersion (a :: l) ∈ (getVersionTags tags versionPre).filter
        (tagFound containsCommit) := by
      rw [hf]
      exact hmem
    have hfam := List.mem_filter.mp hmemf
    refine ⟨findEarliestVersion (a :: l), by simp [hf], hfam.1,
      (tagFound_iff containsCommit _).mp hfam.2, fun t ht hc => ?_⟩
    have : t ∈ (getVersionTags tags versionPre).filter (tagFound containsCommit) :=
      List.mem_filter.mpr ⟨ht, (tagFound_iff containsCommit t).mpr hc⟩
    rw [hf] at this
    exact hle t this

/-! ### C6: NotFound on no calendar match -/

theorem gaStep_skip (product expectedMajorMinor : String) (now : Int)
    (s : GaAcc) (release : ReleaseInfo)
    (h : releaseVersionFor product release = "" ∨
      extractMajorMinor (releaseVersionFor product release) ≠ expectedMajorMinor ∨
      release.gaDate = none) :
    gaStep product expectedMajorMinor now s release = s := by
  unfold gaStep
  rcases h with h | h | h
  · rw [if_pos h]
  · by_cases hv : releaseVersionFor product release = ""
    · rw [if_pos hv]
    · rw [if_neg hv, if_neg h]
  · by_cases hv : releaseVersionFor product release = ""
    · rw [if_pos hv]
    · rw [if_neg hv]
      by_cases hm : extractMajorMinor (releaseVersionFor product release) = expectedMajorMinor
      · rw [if_pos hm, h]
      · rw [if_neg hm]

theorem gaFold_skip (product expectedMajorMinor : String) (now : Int)
    (releases : List ReleaseInfo)
    (h : ∀ r ∈ releases, releaseVersionFor product r = "" ∨
      extractMajorMinor (releaseVersionFor product r) ≠ expectedMajorMinor ∨
      r.gaDate = none) :
    ∀ s : GaAcc, releases.foldl (gaStep product expectedMajorMinor now) s = s := by
  induction releases with
  | nil => intro s; rfl
  | cons a t ih =>
    intro s
    rw [List.foldl_cons, gaStep_skip product expectedMajorMinor now s a
      (h a (List.mem_cons_self a t))]
    exact ih (fun r hr => h r (List.mem_cons.mpr (Or.inr hr))) s

/-- C6: when no calendar record matches the expected product version with a
known GA date, the selection completes (the function is total: the only
error channel of the enclosing query is calendar ingestion itself) and both
returned GA facts carry the status `Not Found` and the expected version. -/
theorem c6_not_found_on_no_match (releases : List ReleaseInfo)
    (product expectedMajorMinor : String) (mergedAt : Option Int) (now : Int)
    (h : ∀ r ∈ releases, releaseVersionFor product r = "" ∨
      extractMajorMinor (releaseVersionFor product r) ≠ expectedMajorMinor ∨
      r.gaDate = none) :
    findLatestAndNextGA releases product expectedMajorMinor mergedAt now =
      ({ version := expectedMajorMinor, status := StatusNotFound },
       { version := expectedMajorMinor, status := StatusNotFound }) := by
  unfold findLatestAndNextGA
  rw [gaFold_skip product expectedMajorMinor now releases h {}]
  rfl

/-- C6 witness: a calendar whose rows either belong to other version families
or lack a GA date yields `Not Found` for both the latest and next facts. -/
theorem c6_not_found_on_no_match_witness :
    findLatestAndNextGA
        [⟨"2.13.3", "2.8.3", some 100, true⟩, ⟨"2.15.0", "", none, false⟩]
        ProductACM "2.14" none 200 =
      ({ version := "2.14", status := StatusNotFound },
       { version := "2.14", status := StatusNotFound }) :=
  c6_not_found_on_no_match
    [⟨"2.13.3", "2.8.3", some 100, true⟩, ⟨"2.15.0", "", none, false⟩]
    ProductACM "2.14" none 200 (by decide)

/-! ### C2: latest / next GA selection picks the date extremes -/

theorem gaStep_past_new (product expectedMajorMinor : String) (now : Int)
    (s : GaAcc) (release : ReleaseInfo) (d : Int)
    (hv : releaseVersionFor product release ≠ "")
    (hm : extractMajorMinor (releaseVersionFor product release) = expectedMajorMinor)
    (hd : release.gaDate = some d) (hlt : d < now) (hnone : s.latestGADate = none) :
    gaStep product expectedMajorMinor now s release =
      { s with latestGADate := some d, latestGA := latestInfoFor product release d } := by
  simp only [gaStep, hd]
  rw [if_neg hv, if_pos hm, if_pos hlt, hnone]

theorem gaStep_past_improve (product expectedMajorMinor : String) (now : Int)
    (s : GaAcc) (release : ReleaseInfo) (d ld : Int)
    (hv : releaseVersionFor product release ≠ "")
    (hm : extractMajorMinor (releaseVersionFor product release) = expectedMajorMinor)
    (hd : release.gaDate = some d) (hlt : d < now) (hsome : s.latestGADate = some ld)
    (himp : ld < d) :
    gaStep product expectedMajorMinor now s release =
      { s with latestGADate := some d, latestGA := latestInfoFor product release d } := by
  simp only [gaStep, hd]
  rw [if_neg hv, if_pos hm, if_pos hlt, hsome]
  simp only [if_pos himp]

theorem gaStep_past_keep (product expectedMajorMinor : String) (now : Int)
    (s : GaAcc) (release : ReleaseInfo) (d ld : Int)
    (hv : releaseVersionFor product release ≠ "")
    (hm : extractMajorMinor (releaseVersionFor product release) = expectedMajorMinor)
    (hd : release.gaDate = some d) (hlt : d < now) (hsome : s.latestGADate = some ld)
    (hkeep : ¬ ld < d) :
    gaStep product expectedMajorMinor now s release = s := by
  simp only [gaStep, hd]
  rw [if_neg hv, if_pos hm, if_pos hlt, hsome]
  simp only [if_neg hkeep]

theorem gaStep_future_new (product expectedMajorMinor : String) (now : Int)
    (s : GaAcc) (release : ReleaseInfo) (d : Int)
    (hv : releaseVersionFor product release ≠ "")
    (hm : extractMajorMinor (releaseVersionFor product release) = expectedMajorMinor)
    (hd : release.gaDate = some d) (hnlt : ¬ d < now) (hnone : s.nextGADate = none) :
    gaStep product expectedMajorMinor now s release =
      { s with nextGADate := some d, nextGA := nextInfoFor product release d } := by
  simp only [gaStep, hd]
  rw [if_neg hv, if_pos hm, if_neg hnlt, hnone]

theorem gaStep_future_improve (product expectedMajorMinor : String) (now : Int)
    (s : GaAcc) (release : ReleaseInfo) (d nd : Int)
    (hv : releaseVersionFor product release ≠ "")
    (hm : extractMajorMinor (releaseVersionFor product release) = expectedMajorMinor)
    (hd : release.gaDate = some d) (hnlt : ¬ d < now) (hsome : s.nextGADate = some nd)
    (himp : d < nd) :
    gaStep product expectedMajorMinor now s release =
      { s with nextGADate := some d, nextGA := nextInfoFor product release d } := by
  simp only [gaStep, hd]
  rw [if_neg hv, if_pos hm, if_neg hnlt, hsome]
  simp only [if_pos himp]

theorem gaStep_future_keep (product expectedMajorMinor : String) (now : Int)
    (s : GaAcc) (release : ReleaseInfo) (d nd : Int)
    (hv : releaseVersionFor product release ≠ "")
    (hm : extractMajorMinor (releaseVersionFor product release) = expectedMajorMinor)
    (hd : release.gaDate = some d) (hnlt : ¬ d < now) (hsome : s.nextGADate = some nd)
    (hkeep : ¬ d < nd) :
    gaStep product expectedMajorMinor now s release = s := by
  simp only [gaStep, hd]
  rw [if_neg hv, if_pos hm, if_neg hnlt, hsome]
  simp only [if_neg hkeep]

/-- Invariant relating the loop state's latest-candidate fields to the rows
processed so far. -/
def LatestInv (product expectedMajorMinor : String) (now : Int)
    (processed : List ReleaseInfo) (s : GaAcc) : Prop :=
  (s.latestGADate = none ∧ s.latestGA = {} ∧
    ∀ r ∈ processed, ∀ d, ¬ IsPastMatch product expectedMajorMinor now r d) ∨
  (∃ r d, r ∈ processed ∧ IsPastMatch product expectedMajorMinor now r d ∧
    s.latestGADate = some d ∧ s.latestGA = latestInfoFor product r d ∧
    ∀ r2 ∈ processed, ∀ d2, IsPastMatch product expectedMajorMinor now r2 d2 → d2 ≤ d)

/-- Invariant relating the loop state's next-candidate fields to the rows
processed so far. -/
def NextInv (product expectedMajorMinor : String) (now : Int)
    (processed : List ReleaseInfo) (s : GaAcc) : Prop :=
  (s.nextGADate = none ∧ s.nextGA = {} ∧
    ∀ r ∈ processed, ∀ d, ¬ IsFutureMatch product expectedMajorMinor now r d) ∨
  (∃ r d, r ∈ processed ∧ IsFutureMatch product expectedMajorMinor now r d ∧
    s.nextGADate = some d ∧ s.nextGA = nextInfoFor product r d ∧
    ∀ r2 ∈ processed, ∀ d2, IsFutureMatch product expectedMajorMinor now r2 d2 → d ≤ d2)

theorem latestInv_extend_nomatch (product expectedMajorMinor : String) (now : Int)
    (processed : List ReleaseInfo) (s : GaAcc) (release : ReleaseInfo)
    (h : LatestInv product expectedMajorMinor now processed s)
    (hnew : ∀ d2, ¬ IsPastMatch product expectedMajorMinor now release d2) :
    LatestInv product expectedMajorMinor now (processed ++ [release]) s := by
  rcases h with ⟨h1, h2, h3⟩ | ⟨r, d, hr, hpm, hs1, hs2, hmax⟩
  · left
    refine ⟨h1, h2, fun r hr d => ?_⟩
    rcases List.mem_append.mp hr with hr | hr
    · exact h3 r hr d
    · rw [List.mem_singleton] at hr
      subst hr
      exact hnew d
  · right
    refine ⟨r, d, List.mem_append.mpr (Or.inl hr), hpm, hs1, hs2, fun r2 hr2 d2 hpm2 => ?_⟩
    rcases List.mem_append.mp hr2 with hr2 | hr2
    · exact hmax r2 hr2 d2 hpm2
    · rw [List.mem_singleton] at hr2
      subst hr2
      exact absurd hpm2 (hnew d2)

theorem nextInv_extend_nomatch (product expectedMajorMinor : String) (now : Int)
    (processed : List ReleaseInfo) (s : GaAcc) (release : ReleaseInfo)
    (h : NextInv product expectedMajorMinor now processed s)
    (hnew : ∀ d2, ¬ IsFutureMatch product expectedMajorMinor now release d2) :
    NextInv product expectedMajorMinor now (processed ++ [release]) s := by
  rcases h with ⟨h1, h2, h3⟩ | ⟨r, d, hr, hpm, hs1, hs2, hmin⟩
  · left
    refine ⟨h1, h2, fun r hr d => ?_⟩
    rcases List.mem_append.mp hr with hr | hr
    · exact h3 r hr d
    · rw [List.mem_singleton] at hr
      subst hr
      exact hnew d
  · right
    refine ⟨r, d, List.mem_append.mpr (Or.inl hr), hpm, hs1, hs2, fun r2 hr2 d2 hpm2 => ?_⟩
    rcases List.mem_append.mp hr2 with hr2 | hr2
    · exact hmin r2 hr2 d2 hpm2
    · rw [List.mem_singleton] at hr2
      subst hr2
      exact absurd hpm2 (hnew d2)

theorem gaStep_latestInv (product expectedMajorMinor : String) (now : Int)
    (processed : List ReleaseInfo) (s : GaAcc) (release : ReleaseInfo)
    (h : LatestInv product expectedMajorMinor now processed s) :
    LatestInv product expectedMajorMinor now (processed ++ [release])
      (gaStep product expectedMajorMinor now s release) := by
  by_cases hv : releaseVersionFor product release = ""
  · rw [gaStep_skip _ _ _ _ _ (Or.inl hv)]
    exact latestInv_extend_nomatch _ _ _ _ _ _ h (fun d2 hpm => hpm.1 hv)
  by_cases hm : extractMajorMinor (releaseVersionFor product release) = expectedMajorMinor
  case neg =>
    rw [gaStep_skip _ _ _ _ _ (Or.inr (Or.inl hm))]
    exact latestInv_extend_nomatch _ _ _ _ _ _ h (fun d2 hpm => hm hpm.2.1)
  cases hd : release.gaDate with
  | none =>
    rw [gaStep_skip _ _ _ _ _ (Or.inr (Or.inr hd))]
    exact latestInv_extend_nomatch _ _ _ _ _ _ h
      (fun d2 hpm => Option.noConfusion (hd.symm.trans hpm.2.2.1))
  | some d =>
    by_cases hlt : d < now
    · -- a past match: the new row at date d
      have hpmNew : IsPastMatch product expectedMajorMinor now release d := ⟨hv, hm, hd, hlt⟩
      cases hsome : s.latestGADate with
      | none =>
        rw [gaStep_past_new _ _ _ _ _ _ hv hm hd hlt hsome]
        rcases h with ⟨_, _, h3⟩ | ⟨_, _, _, _, hs1, _, _⟩
        · right
          refine ⟨release, d, List.mem_append.mpr (Or.inr (List.mem_singleton.mpr rfl)),
            hpmNew, rfl, rfl, fun r2 hr2 d2 hpm2 => ?_⟩
          rcases List.mem_append.mp hr2 with hr2 | hr2
          · exact absurd hpm2 (h3 r2 hr2 d2)
          · rw [List.mem_singleton] at hr2
            subst hr2
            have : some d2 = some d := hpm2.2.2.1.symm.trans hd
            exact le_of_eq (Option.some.injEq _ _ ▸ this)
        · rw [hsome] at hs1
          exact Option.noConfusion hs1
      | some ld =>
        rcases h with ⟨hs1, _, _⟩ | ⟨r0, d0, hr0, hpm0, hs1, hs2, hmax⟩
        · rw [hsome] at hs1
          exact Option.noConfusion hs1
        have hld : ld = d0 := by
          rw [hsome] at hs1
          exact Option.some.inj hs1
        subst hld
        by_cases himp : ld < d
        · rw [gaStep_past_improve _ _ _ _ _ _ _ hv hm hd hlt hsome himp]
          right
          refine ⟨release, d, List.mem_append.mpr (Or.inr (List.mem_singleton.mpr rfl)),
            hpmNew, rfl, rfl, fun r2 hr2 d2 hpm2 => ?_⟩
          rcases List.mem_append.mp hr2 with hr2 | hr2
          · exact le_of_lt (lt_of_le_of_lt (hmax r2 hr2 d2 hpm2) himp)
          · rw [List.mem_singleton] at hr2
            subst hr2
            have : some d2 = some d := hpm2.2.2.1.symm.trans hd
            exact le_of_eq (Option.some.inj this)
        · rw [gaStep_past_keep _ _ _ _ _ _ _ hv hm hd hlt hsome himp]
          right
          refine ⟨r0, ld, List.mem_append.mpr (Or.inl hr0), hpm0, hs1, hs2,
            fun r2 hr2 d2 hpm2 => ?_⟩
          rcases List.mem_append.mp hr2 with hr2 | hr2
          · exact hmax r2 hr2 d2 hpm2
          · rw [List.mem_singleton] at hr2
            subst hr2
            have hdd : d2 = d := Option.some.inj (hpm2.2.2.1.symm.trans hd)
            subst hdd
            exact not_lt.mp himp
    · -- a future row: only the next-candidate fields may change
      have hnew : ∀ d2, ¬ IsPastMatch product expectedMajorMinor now release d2 := by
        intro d2 hpm
        have hdd : d2 = d := Option.some.inj (hpm.2.2.1.symm.trans hd)
        subst hdd
        exact hlt hpm.2.2.2
      have hsame : (gaStep product expectedMajorMinor now s release).latestGADate =
          s.latestGADate ∧
          (gaStep product expectedMajorMinor now s release).latestGA = s.latestGA := by
        cases hsome : s.nextGADate with
        | none =>
          rw [gaStep_future_new _ _ _ _ _ _ hv hm hd hlt hsome]
          exact ⟨rfl, rfl⟩
        | some nd =>
          by_cases himp : d < nd
          · rw [gaStep_future_improve _ _ _ _ _ _ _ hv hm hd hlt hsome himp]
            exact ⟨rfl, rfl⟩
          · rw [gaStep_future_keep _ _ _ _ _ _ _ hv hm hd hlt hsome himp]
            exact ⟨rfl, rfl⟩
      have hext := latestInv_extend_nomatch _ _ _ _ _ _ h hnew
      rcases hext with ⟨h1, h2, h3⟩ | ⟨r, d0, hr, hpm, hs1, hs2, hmax⟩
      · left
        exact ⟨hsame.1.trans h1, hsame.2.trans h2, h3⟩
      · right
        exact ⟨r, d0, hr, hpm, hsame.1.trans hs1, hsame.2.trans hs2, hmax⟩

theorem gaStep_nextInv (product expectedMajorMinor : String) (now : Int)
    (processed : List ReleaseInfo) (s : GaAcc) (release : ReleaseInfo)
    (h : NextInv product expectedMajorMinor now processed s) :
    NextInv product expectedMajorMinor now (processed ++ [release])
      (gaStep product expectedMajorMinor now s release) := by
  by_cases hv : releaseVersionFor product release = ""
  · rw [gaStep_skip _ _ _ _ _ (Or.inl hv)]
    exact nextInv_extend_nomatch _ _ _ _ _ _ h (fun d2 hpm => hpm.1 hv)
  by_cases hm : extractMajorMinor (releaseVersionFor product release) = expectedMajorMinor
  case neg =>
    rw [gaStep_skip _ _ _ _ _ (Or.inr (Or.inl hm))]
    exact nextInv_extend_nomatch _ _ _ _ _ _ h (fun d2 hpm => hm hpm.2.1)
  cases hd : release.gaDate with
  | none =>
    rw [gaStep_skip _ _ _ _ _ (Or.inr (Or.inr hd))]
    exact nextInv_extend_nomatch _ _ _ _ _ _ h
      (fun d2 hpm => Option.noConfusion (hd.symm.trans hpm.2.2.1))
  | some d =>
    by_cases hlt : d < now
    · -- a past row: only the latest-candidate fields may change
      have hnew : ∀ d2, ¬ IsFutureMatch product expectedMajorMinor now release d2 := by
        intro d2 hpm
        have hdd : d2 = d := Option.some.inj (hpm.2.2.1.symm.trans hd)
        subst hdd
        exact hpm.2.2.2 hlt
      have hsame : (gaStep product expectedMajorMinor now s release).nextGADate =
          s.nextGADate ∧
          (gaStep product expectedMajorMinor now s release).nextGA = s.nextGA := by
        cases hsome : s.latestGADate with
        | none =>
          rw [gaStep_past_new _ _ _ _ _ _ hv hm hd hlt hsome]
          exact ⟨rfl, rfl⟩
        | some ld =>
          by_cases himp : ld < d
          · rw [gaStep_past_improve _ _ _ _ _ _ _ hv hm hd hlt hsome himp]
            exact ⟨rfl, rfl⟩
          · rw [gaStep_past_keep _ _ _ _ _ _ _ hv hm hd hlt hsome himp]
            exact ⟨rfl, rfl⟩
      have hext := nextInv_extend_nomatch _ _ _ _ _ _ h hnew
      rcases hext with ⟨h1, h2, h3⟩ | ⟨r, d0, hr, hpm, hs1, hs2, hmin⟩
      · left
        exact ⟨hsame.1.trans h1, hsame.2.trans h2, h3⟩
      · right
        exact ⟨r, d0, hr, hpm, hsame.1.trans hs1, hsame.2.trans hs2, hmin⟩
    · -- a future match: the new row at date d
      have hpmNew : IsFutureMatch product expectedMajorMinor now release d := ⟨hv, hm, hd, hlt⟩
      cases hsome : s.nextGADate with
      | none =>
        rw [gaStep_future_new _ _ _ _ _ _ hv hm hd hlt hsome]
        rcases h with ⟨_, _, h3⟩ | ⟨_, _, _, _, hs1, _, _⟩
        · right
          refine ⟨release, d, List.mem_append.mpr (Or.inr (List.mem_singleton.mpr rfl)),
            hpmNew, rfl, rfl, fun r2 hr2 d2 hpm2 => ?_⟩
          rcases List.mem_append.mp hr2 with hr2 | hr2
          · exact absurd hpm2 (h3 r2 hr2 d2)
          · rw [List.mem_singleton] at hr2
            subst hr2
            have : some d2 = some d := hpm2.2.2.1.symm.trans hd
            exact le_of_eq (Option.some.inj this).symm
        · rw [hsome] at hs1
          exact Option.noConfusion hs1
      | some nd =>
        rcases h with ⟨hs1, _, _⟩ | ⟨r0, d0, hr0, hpm0, hs1, hs2, hmin⟩
        · rw [hsome] at hs1
          exact Option.noConfusion hs1
        have hnd : nd = d0 := by
          rw [hsome] at hs1
          exact Option.some.inj hs1
        subst hnd
        by_cases himp : d < nd
        · rw [gaStep_future_improve _ _ _ _ _ _ _ hv hm hd hlt hsome himp]
          right
          refine ⟨release, d, List.mem_append.mpr (Or.inr (List.mem_singleton.mpr rfl)),
            hpmNew, rfl, rfl, fun r2 hr2 d2 hpm2 => ?_⟩
          rcases List.mem_append.mp hr2 with hr2 | hr2
          · exact le_of_lt (lt_of_lt_of_le himp (hmin r2 hr2 d2 hpm2))
          · rw [List.mem_singleton] at hr2
            subst hr2
            have : some d2 = some d := hpm2.2.2.1.symm.trans hd
            exact le_of_eq (Option.some.inj this).symm
        · rw [gaStep_future_keep _ _ _ _ _ _ _ hv hm hd hlt hsome himp]
          right
          refine ⟨r0, nd, List.mem_append.mpr (Or.inl hr0), hpm0, hs1, hs2,
            fun r2 hr2 d2 hpm2 => ?_⟩
          rcases List.mem_append.mp hr2 with hr2 | hr2
          · exact hmin r2 hr2 d2 hpm2
          · rw [List.mem_singleton] at hr2
            subst hr2
            have hdd : d2 = d := Option.some.inj (hpm2.2.2.1.symm.trans hd)
            subst hdd
            exact not_lt.mp himp

theorem gaFold_inv (product expectedMajorMinor : String) (now : Int) :
    ∀ (l processed : List ReleaseInfo) (s : GaAcc),
      LatestInv product expectedMajorMinor now processed s →
      NextInv product expectedMajorMinor now processed s →
      LatestInv product expectedMajorMinor now (processed ++ l)
          (l.foldl (gaStep product expectedMajorMinor now) s) ∧
        NextInv product expectedMajorMinor now (processed ++ l)
          (l.foldl (gaStep product expectedMajorMinor now) s) := by
  intro l
  induction l with
  | nil =>
    intro processed s h1 h2
    rw [List.append_nil]
    exact ⟨h1, h2⟩
  | cons a t ih =>
    intro processed s h1 h2
    rw [List.foldl_cons]
    have h1a := gaStep_latestInv product expectedMajorMinor now processed s a h1
    have h2a := gaStep_nextInv product expectedMajorMinor now processed s a h2
    have := ih (processed ++ [a]) (gaStep product expectedMajorMinor now s a) h1a h2a
    rwa [List.append_assoc, List.singleton_append] at this

/-- C2: among the calendar records matching the expected product version with
a known GA date, whenever a past match exists the returned "latest" fact is
built from a matching record whose past GA date is maximal among all past
matches, and whenever a future match exists the returned "next" fact is
built from a matching record whose future GA date is minimal among all
future matches. -/
theorem c2_latest_next_selection (releases : List ReleaseInfo)
    (product expectedMajorMinor : String) (mergedAt : Option Int) (now : Int) :
    ((∃ r ∈ releases, ∃ d, IsPastMatch product expectedMajorMinor now r d) →
      ∃ rl ∈ releases, ∃ dl, IsPastMatch product expectedMajorMinor now rl dl ∧
        (findLatestAndNextGA releases product expectedMajorMinor mergedAt now).1 =
          latestInfoFor product rl dl ∧
        ∀ r2 ∈ releases, ∀ d2,
          IsPastMatch product expectedMajorMinor now r2 d2 → d2 ≤ dl) ∧
    ((∃ r ∈ releases, ∃ d, IsFutureMatch product expectedMajorMinor now r d) →
      ∃ rn ∈ releases, ∃ dn, IsFutureMatch product expectedMajorMinor now rn dn ∧
        (findLatestAndNextGA releases product expectedMajorMinor mergedAt now).2 =
          nextInfoFor product rn dn ∧
        ∀ r2 ∈ releases, ∀ d2,
          IsFutureMatch product expectedMajorMinor now r2 d2 → dn ≤ d2) := by
  have hinit1 : LatestInv product expectedMajorMinor now [] {} :=
    Or.inl ⟨rfl, rfl, fun r hr => absurd hr (List.not_mem_nil r)⟩
  have hinit2 : NextInv product expectedMajorMinor now [] {} :=
    Or.inl ⟨rfl, rfl, fun r hr => absurd hr (List.not_mem_nil r)⟩
  have hfold := gaFold_inv product expectedMajorMinor now releases [] {} hinit1 hinit2
  rw [List.nil_append] at hfold
  obtain ⟨hlat, hnext⟩ := hfold
  constructor
  · intro ⟨r, hr, d, hpm⟩
    rcases hlat with ⟨_, _, h3⟩ | ⟨rl, dl, hrl, hpml, hs1, hs2, hmax⟩
    · exact absurd hpm (h3 r hr d)
    · refine ⟨rl, hrl, dl, hpml, ?_, hmax⟩
      unfold findLatestAndNextGA
      have hver : (releases.foldl (gaStep product expectedMajorMinor now) {}).latestGA.version ≠
          "" := by
        rw [hs2]
        exact hpml.1
      simp only [if_neg hver]
      exact hs2
  · intro ⟨r, hr, d, hpm⟩
    rcases hnext with ⟨_, _, h3⟩ | ⟨rn, dn, hrn, hpmn, hs1, hs2, hmin⟩
    · exact absurd hpm (h3 r hr d)
    · refine ⟨rn, hrn, dn, hpmn, ?_, hmin⟩
      unfold findLatestAndNextGA
      have hver : (releases.foldl (gaStep product expectedMajorMinor now) {}).nextGA.version ≠
          "" := by
        rw [hs2]
        exact hpmn.1
      simp only [if_neg hver]
      exact hs2

/-- C2 witness: in a calendar with two past `2.14` records and one future
one, the claim instance picks the record dated 150 as latest (maximal past
date), and the future record as next. -/
theorem c2_latest_next_selection_witness :
    (∃ rl ∈ ([⟨"2.14.1", "2.9.1", some 100, true⟩, ⟨"2.14.2", "2.9.2", some 150, true⟩,
        ⟨"2.14.3", "2.9.3", some 300, false⟩] : List ReleaseInfo), ∃ dl,
      IsPastMatch ProductACM "2.14" 200 rl dl ∧
      (findLatestAndNextGA
        [⟨"2.14.1", "2.9.1", some 100, true⟩, ⟨"2.14.2", "2.9.2", some 150, true⟩,
         ⟨"2.14.3", "2.9.3", some 300, false⟩] ProductACM "2.14" none 200).1 =
        latestInfoFor ProductACM rl dl ∧
      ∀ r2 ∈ ([⟨"2.14.1", "2.9.1", some 100, true⟩, ⟨"2.14.2", "2.9.2", some 150, true⟩,
          ⟨"2.14.3", "2.9.3", some 300, false⟩] : List ReleaseInfo), ∀ d2,
        IsPastMatch ProductACM "2.14" 200 r2 d2 → d2 ≤ dl) ∧
    (findLatestAndNextGA
      [⟨"2.14.1", "2.9.1", some 100, true⟩, ⟨"2.14.2", "2.9.2", some 150, true⟩,
       ⟨"2.14.3", "2.9.3", some 300, false⟩] ProductACM "2.14" none 200).1 =
      ⟨"2.14.2", some 150, true, false, "GA"⟩ :=
  ⟨(c2_latest_next_selection
      [⟨"2.14.1", "2.9.1", some 100, true⟩, ⟨"2.14.2", "2.9.2", some 150, true⟩,
       ⟨"2.14.3", "2.9.3", some 300, false⟩] ProductACM "2.14" none 200).1
    ⟨⟨"2.14.1", "2.9.1", some 100, true⟩, by decide, 100, by decide⟩, by decide⟩

/-! ### C4: partial-failure isolation with full fan-out -/

/-- C4: the presence-check phase produces exactly one presence fact per input
branch; slot `i` of the result is exactly the worker's output for branch `i`
of the catalog (so discovery order is preserved and each slot carries its own
branch's name, regardless of `found`), each slot depends only on its own
branch's call outcomes, and a failure of either repository call behind a
single branch's containment check yields `found = false` for that branch
only — the other slots are still the full worker output for their own
branches, and the batch itself is total. -/
theorem c4_full_fanout_isolation (g : GlobalEnv) (oracleFor : String → BranchOracle)
    (branchInfos : List BranchInfo) :
    (analyzeBranchPresences g oracleFor branchInfos).length = branchInfos.length ∧
    (∀ i : Nat, (analyzeBranchPresences g oracleFor branchInfos)[i]? =
      (branchInfos[i]?).map (fun b => branchWorker g (oracleFor b.name) b)) ∧
    (∀ i : Nat, ∀ b : BranchInfo, branchInfos[i]? = some b →
      (analyzeBranchPresences g oracleFor branchInfos)[i]? =
          some (branchWorker g (oracleFor b.name) b) ∧
        (branchWorker g (oracleFor b.name) b).branchName = b.name) ∧
    (∀ b : BranchInfo,
      ((∃ e, (oracleFor b.name).getCommitDate = .error e) ∨
        (∃ e, (oracleFor b.name).compareAheadBy = .error e)) →
      (branchWorker g (oracleFor b.name) b).found = false) := by
  refine ⟨List.length_map _ _, fun i => List.getElem?_map _ _ _, fun i b hb => ?_, fun b herr => ?_⟩
  · exact ⟨(List.getElem?_map _ _ _).trans (by rw [hb]; rfl), rfl⟩
  · show (checkCommitInBranch (oracleFor b.name)).1 = false
    unfold checkCommitInBranch
    rcases herr with ⟨e, he⟩ | ⟨e, he⟩
    · rw [he]
    · cases hg : (oracleFor b.name).getCommitDate with
      | error e2 => rfl
      | ok cd => rw [he]

/-- C4 witness: with two discovered branches where the first branch's commit
lookup times out, the batch still yields one fact per branch in order and the
failed branch is recorded as not found. -/
theorem c4_full_fanout_isolation_witness :
    (analyzeBranchPresences ⟨.ok [], 0, "assisted-service", .ok [], fun _ => none⟩
        (fun n => if n = "release-ocm-2.13" then ⟨.error "timeout", .ok 0⟩
          else ⟨.ok (some 42), .ok 0⟩)
        [⟨"release-ocm-2.13", "release-ocm-", "2.13"⟩,
         ⟨"release-ocm-2.14", "release-ocm-", "2.14"⟩]).length = 2 ∧
    (branchWorker ⟨.ok [], 0, "assisted-service", .ok [], fun _ => none⟩
      ((fun n => if n = "release-ocm-2.13" then
          (⟨.error "timeout", .ok 0⟩ : BranchOracle) else ⟨.ok (some 42), .ok 0⟩)
        "release-ocm-2.13")
      ⟨"release-ocm-2.13", "release-ocm-", "2.13"⟩).found = false :=
  ⟨(c4_full_fanout_isolation ⟨.ok [], 0, "assisted-service", .ok [], fun _ => none⟩
      (fun n => if n = "release-ocm-2.13" then ⟨.error "timeout", .ok 0⟩
        else ⟨.ok (some 42), .ok 0⟩)
      [⟨"release-ocm-2.13", "release-ocm-", "2.13"⟩,
       ⟨"release-ocm-2.14", "release-ocm-", "2.14"⟩]).1,
   (c4_full_fanout_isolation ⟨.ok [], 0, "assisted-service", .ok [], fun _ => none⟩
      (fun n => if n = "release-ocm-2.13" then ⟨.error "timeout", .ok 0⟩
        else ⟨.ok (some 42), .ok 0⟩)
      [⟨"release-ocm-2.13", "release-ocm-", "2.13"⟩,
       ⟨"release-ocm-2.14", "release-ocm-", "2.14"⟩]).2.2.2
     ⟨"release-ocm-2.13", "release-ocm-", "2.13"⟩ (Or.inl ⟨"timeout", by decide⟩)⟩


/-! ### C7: upcoming-after-merge selection -/

theorem upcomingOf_some_inv (product expectedMajorMinor : String) (m : Int)
    (release : ReleaseInfo) (y : UpcomingGA)
    (h : upcomingOf product expectedMajorMinor m release = some y) :
    y.product = product ∧ ∃ d, y.gaDate = some d ∧ m < d := by
  simp only [upcomingOf] at h
  split at h
  · exact Option.noConfusion h
  · split at h
    · split at h
      · exact Option.noConfusion h
      · split at h
        · obtain rfl := Option.some.inj h
          exact ⟨rfl, _, rfl, by assumption⟩
        · exact Option.noConfusion h
    · exact Option.noConfusion h

theorem sorted_find?_le (p : UpcomingGA → Bool) :
    ∀ l : List UpcomingGA, List.Sorted gaDateLe l → ∀ x, l.find? p = some x →
      ∀ y ∈ l, p y = true → gaDateLe x y := by
  intro l
  induction l with
  | nil =>
    intro _ x hf
    exact absurd hf (by simp)
  | cons a t ih =>
    intro hs x hf y hy hp
    rw [List.sorted_cons] at hs
    by_cases hpa : p a = true
    · rw [List.find?_cons_of_pos _ hpa] at hf
      obtain rfl := Option.some.inj hf
      rcases List.mem_cons.mp hy with rfl | hy
      · exact le_refl (gaKey y)
      · exact hs.1 y hy
    · rw [List.find?_cons_of_neg _ hpa] at hf
      rcases List.mem_cons.mp hy with rfl | hy
      · exact absurd hp hpa
      · exact ih hs.2 x hf y hy hp

theorem optToList_countP_zero (o : Option UpcomingGA) (p : UpcomingGA → Bool)
    (h : ∀ x, o = some x → p x = false) : o.toList.countP p = 0 := by
  cases o with
  | none => rfl
  | some x => simp [List.countP_cons, h x rfl]

/-- Core selection property of the tail of `GetUpcomingGAVersions`: with the
two per-product pools combined, sorted by date, and reduced to the first
entry per product, the result has at most one entry per product, draws from
the pools, is date-minimal per product, and is empty for an empty pool. -/
theorem closest_per_product_spec (poolA poolM : List UpcomingGA)
    (hAprod : ∀ x ∈ poolA, x.product = ProductACM)
    (hMprod : ∀ x ∈ poolM, x.product = ProductMCE) :
    ((((poolA ++ poolM).insertionSort gaDateLe).find?
          (fun g => g.product = ProductACM)).toList ++
        (((poolA ++ poolM).insertionSort gaDateLe).find?
          (fun g => g.product = ProductMCE)).toList).countP
        (fun x => x.product = ProductACM) ≤ 1 ∧
    ((((poolA ++ poolM).insertionSort gaDateLe).find?
          (fun g => g.product = ProductACM)).toList ++
        (((poolA ++ poolM).insertionSort gaDateLe).find?
          (fun g => g.product = ProductMCE)).toList).countP
        (fun x => x.product = ProductMCE) ≤ 1 ∧
    ((((poolA ++ poolM).insertionSort gaDateLe).find?
          (fun g => g.product = ProductACM)).toList ++
        (((poolA ++ poolM).insertionSort gaDateLe).find?
          (fun g => g.product = ProductMCE)).toList).length ≤ 2 ∧
    (∀ x ∈ (((poolA ++ poolM).insertionSort gaDateLe).find?
          (fun g => g.product = ProductACM)).toList ++
        (((poolA ++ poolM).insertionSort gaDateLe).find?
          (fun g => g.product = ProductMCE)).toList, x ∈ poolA ++ poolM) ∧
    (∀ x ∈ (((poolA ++ poolM).insertionSort gaDateLe).find?
          (fun g => g.product = ProductACM)).toList ++
        (((poolA ++ poolM).insertionSort gaDateLe).find?
          (fun g => g.product = ProductMCE)).toList, ∀ y,
      ((x.product = ProductACM ∧ y ∈ poolA) ∨ (x.product = ProductMCE ∧ y ∈ poolM)) →
      gaDateLe x y) := by
  have hsorted := List.sorted_insertionSort gaDateLe (poolA ++ poolM)
  have hperm : ∀ z : UpcomingGA,
      z ∈ (poolA ++ poolM).insertionSort gaDateLe ↔ z ∈ poolA ++ poolM :=
    fun z => List.mem_insertionSort gaDateLe
  have hfindA : ∀ x, ((poolA ++ poolM).insertionSort gaDateLe).find?
      (fun g => g.product = ProductACM) = some x → x.product = ProductACM := by
    intro x hx
    have h := List.find?_some hx
    simp only [decide_eq_true_eq] at h
    exact h
  have hfindM : ∀ x, ((poolA ++ poolM).insertionSort gaDateLe).find?
      (fun g => g.product = ProductMCE) = some x → x.product = ProductMCE := by
    intro x hx
    have h := List.find?_some hx
    simp only [decide_eq_true_eq] at h
    exact h
  have hmemres : ∀ x, (x ∈ (((poolA ++ poolM).insertionSort gaDateLe).find?
        (fun g => g.product = ProductACM)).toList ++
      (((poolA ++ poolM).insertionSort gaDateLe).find?
        (fun g => g.product = ProductMCE)).toList) → x ∈ poolA ++ poolM := by
    intro x hx
    rcases List.mem_append.mp hx with hx | hx <;>
      exact (hperm x).mp
        (List.mem_of_find?_eq_some (Option.mem_def.mp (Option.mem_toList.mp hx)))
  refine ⟨?_, ?_, ?_, hmemres, ?_⟩
  · rw [List.countP_append]
    have hz : (((poolA ++ poolM).insertionSort gaDateLe).find?
        (fun g => g.product = ProductMCE)).toList.countP
        (fun x => x.product = ProductACM) = 0 := by
      refine optToList_countP_zero _ _ (fun x hx => ?_)
      simp only [decide_eq_false_iff_not]
      rw [hfindM x hx]
      decide
    rw [hz]
    have hcle : (((poolA ++ poolM).insertionSort gaDateLe).find?
        (fun g => g.product = ProductACM)).toList.countP
        (fun x => x.product = ProductACM) ≤
        (((poolA ++ poolM).insertionSort gaDateLe).find?
        (fun g => g.product = ProductACM)).toList.length :=
      List.countP_le_length _
    have hlen : (((poolA ++ poolM).insertionSort gaDateLe).find?
        (fun g => g.product = ProductACM)).toList.length ≤ 1 := by
      cases ((poolA ++ poolM).insertionSort gaDateLe).find?
        (fun g => g.product = ProductACM) <;> simp
    omega
  · rw [List.countP_append]
    have hz : (((poolA ++ poolM).insertionSort gaDateLe).find?
        (fun g => g.product = ProductACM)).toList.countP
        (fun x => x.product = ProductMCE) = 0 := by
      refine optToList_countP_zero _ _ (fun x hx => ?_)
      simp only [decide_eq_false_iff_not]
      rw [hfindA x hx]
      decide
    rw [hz]
    have hcle : (((poolA ++ poolM).insertionSort gaDateLe).find?
        (fun g => g.product = ProductMCE)).toList.countP
        (fun x => x.product = ProductMCE) ≤
        (((poolA ++ poolM).insertionSort gaDateLe).find?
        (fun g => g.product = ProductMCE)).toList.length :=
      List.countP_le_length _
    have hlen : (((poolA ++ poolM).insertionSort gaDateLe).find?
        (fun g => g.product = ProductMCE)).toList.length ≤ 1 := by
      cases ((poolA ++ poolM).insertionSort gaDateLe).find?
        (fun g => g.product = ProductMCE) <;> simp
    omega
  · rw [List.length_append]
    have h1 : (((poolA ++ poolM).insertionSort gaDateLe).find?
        (fun g => g.product = ProductACM)).toList.length ≤ 1 := by
      cases ((poolA ++ poolM).insertionSort gaDateLe).find?
        (fun g => g.product = ProductACM) <;> simp
    have h2 : (((poolA ++ poolM).insertionSort gaDateLe).find?
        (fun g => g.product = ProductMCE)).toList.length ≤ 1 := by
      cases ((poolA ++ poolM).insertionSort gaDateLe).find?
        (fun g => g.product = ProductMCE) <;> simp
    omega
  · intro x hx y hy
    rcases List.mem_append.mp hx with hx | hx
    · have hfx : ((poolA ++ poolM).insertionSort gaDateLe).find?
          (fun g => g.product = ProductACM) = some x :=
        Option.mem_def.mp (Option.mem_toList.mp hx)
      rcases hy with ⟨_, hyA⟩ | ⟨hxM, _⟩
      · have hysort : y ∈ (poolA ++ poolM).insertionSort gaDateLe :=
          (hperm y).mpr (List.mem_append.mpr (Or.inl hyA))
        exact sorted_find?_le _ _ hsorted x hfx y hysort
          (by simpa using hAprod y hyA)
      · exact absurd ((hfindA x hfx).symm.trans hxM) (by decide)
    · have hfx : ((poolA ++ poolM).insertionSort gaDateLe).find?
          (fun g => g.product = ProductMCE) = some x :=
        Option.mem_def.mp (Option.mem_toList.mp hx)
      rcases hy with ⟨hxA, _⟩ | ⟨_, hyM⟩
      · exact absurd ((hfindM x hfx).symm.trans hxA) (by decide)
      · have hysort : y ∈ (poolA ++ poolM).insertionSort gaDateLe :=
          (hperm y).mpr (List.mem_append.mpr (Or.inr hyM))
        exact sorted_find?_le _ _ hsorted x hfx y hysort
          (by simpa using hMprod y hyM)

/-- C7: the upcoming-GA result of a branch contains at most one entry per
product (hence at most two entries); every returned entry's GA date is
strictly after the merge timestamp and minimal among that product's matching
records strictly after the merge; a product with no matching record strictly
after the merge contributes no entry (without this being an error, the
function being total); and a missing merge timestamp yields no entries. -/
theorem c7_upcoming_after_merge (allReleases : List ReleaseInfo) (version : String)
    (mergedAt : Option Int) :
    (mergedAt = none → getUpcomingGAVersions allReleases version mergedAt = []) ∧
    (∀ m, mergedAt = some m →
      ((getUpcomingGAVersions allReleases version mergedAt).countP
          (fun x => x.product = ProductACM) ≤ 1 ∧
        (getUpcomingGAVersions allReleases version mergedAt).countP
          (fun x => x.product = ProductMCE) ≤ 1 ∧
        (getUpcomingGAVersions allReleases version mergedAt).length ≤ 2) ∧
      (∀ x ∈ getUpcomingGAVersions allReleases version mergedAt,
        ∃ d, x.gaDate = some d ∧ m < d) ∧
      (∀ x ∈ getUpcomingGAVersions allReleases version mergedAt,
        ∀ y ∈ findVersionsAfterMergeForProduct allReleases x.product
          (expectedVersionFor version x.product) m,
        ∃ dx dy, x.gaDate = some dx ∧ y.gaDate = some dy ∧ dx ≤ dy) ∧
      (∀ p : String, findVersionsAfterMergeForProduct allReleases p
          (expectedVersionFor version p) m = [] →
        ∀ x ∈ getUpcomingGAVersions allReleases version mergedAt, x.product ≠ p)) := by
  constructor
  · intro h
    rw [h]
    rfl
  intro m hm
  subst hm
  have hAprod : ∀ x ∈ findVersionsAfterMergeForProduct allReleases ProductACM
      (expectedVersionFor version ProductACM) m, x.product = ProductACM := by
    intro x hx
    obtain ⟨r, _, hr⟩ := List.mem_filterMap.mp hx
    exact (upcomingOf_some_inv _ _ _ _ _ hr).1
  have hMprod : ∀ x ∈ findVersionsAfterMergeForProduct allReleases ProductMCE
      (expectedVersionFor version ProductMCE) m, x.product = ProductMCE := by
    intro x hx
    obtain ⟨r, _, hr⟩ := List.mem_filterMap.mp hx
    exact (upcomingOf_some_inv _ _ _ _ _ hr).1
  have hdates : ∀ x, x ∈ findVersionsAfterMergeForProduct allReleases ProductACM
        (expectedVersionFor version ProductACM) m ++
      findVersionsAfterMergeForProduct allReleases ProductMCE
        (expectedVersionFor version ProductMCE) m →
      ∃ d, x.gaDate = some d ∧ m < d := by
    intro x hx
    rcases List.mem_append.mp hx with hx | hx <;>
    · obtain ⟨r, _, hr⟩ := List.mem_filterMap.mp hx
      exact (upcomingOf_some_inv _ _ _ _ _ hr).2
  obtain ⟨hc1, hc2, hc3, hmem, hmin⟩ := closest_per_product_spec
    (findVersionsAfterMergeForProduct allReleases ProductACM
      (expectedVersionFor version ProductACM) m)
    (findVersionsAfterMergeForProduct allReleases ProductMCE
      (expectedVersionFor version ProductMCE) m) hAprod hMprod
  have hres : getUpcomingGAVersions allReleases version (some m) =
      (((findVersionsAfterMergeForProduct allReleases ProductACM
          (expectedVersionFor version ProductACM) m ++
        findVersionsAfterMergeForProduct allReleases ProductMCE
          (expectedVersionFor version ProductMCE) m).insertionSort gaDateLe).find?
        (fun g => g.product = ProductACM)).toList ++
      (((findVersionsAfterMergeForProduct allReleases ProductACM
          (expectedVersionFor version ProductACM) m ++
        findVersionsAfterMergeForProduct allReleases ProductMCE
          (expectedVersionFor version ProductMCE) m).insertionSort gaDateLe).find?
        (fun g => g.product = ProductMCE)).toList := rfl
  rw [hres]
  refine ⟨⟨hc1, hc2, hc3⟩, fun x hx => hdates x (hmem x hx), fun x hx y hy => ?_, ?_⟩
  · -- per-product minimality, translated to dates
    have hxpool := hmem x hx
    have hxprod : x.product = ProductACM ∨ x.product = ProductMCE := by
      rcases List.mem_append.mp hxpool with hxp | hxp
      · exact Or.inl (hAprod x hxp)
      · exact Or.inr (hMprod x hxp)
    have hle : gaDateLe x y := by
      rcases hxprod with hxp | hxp
      · rw [hxp] at hy
        exact hmin x hx y (Or.inl ⟨hxp, hy⟩)
      · rw [hxp] at hy
        exact hmin x hx y (Or.inr ⟨hxp, hy⟩)
    obtain ⟨dx, hdx, _⟩ := hdates x hxpool
    have hypool : y ∈ findVersionsAfterMergeForProduct allReleases ProductACM
        (expectedVersionFor version ProductACM) m ++
      findVersionsAfterMergeForProduct allReleases ProductMCE
        (expectedVersionFor version ProductMCE) m := by
      rcases hxprod with hxp | hxp
      · rw [hxp] at hy
        exact List.mem_append.mpr (Or.inl hy)
      · rw [hxp] at hy
        exact List.mem_append.mpr (Or.inr hy)
    obtain ⟨dy, hdy, _⟩ := hdates y hypool
    refine ⟨dx, dy, hdx, hdy, ?_⟩
    have hkey : (dx : WithTop Int) ≤ (dy : WithTop Int) := by
      have hgx : gaKey x = (dx : WithTop Int) := by simp [gaKey, hdx]
      have hgy : gaKey y = (dy : WithTop Int) := by simp [gaKey, hdy]
      rw [← hgx, ← hgy]
      exact hle
    exact_mod_cast hkey
  · -- a product with no matching record contributes no entry
    intro p hp x hx heq
    have hxpool := hmem x hx
    rcases List.mem_append.mp hxpool with hxp | hxp
    · have hxA := hAprod x hxp
      rw [← heq, hxA] at hp
      rw [hp] at hxp
      exact absurd hxp (List.not_mem_nil x)
    · have hxM := hMprod x hxp
      rw [← heq, hxM] at hp
      rw [hp] at hxp
      exact absurd hxp (List.not_mem_nil x)

/-- C7 witness: with one `2.14`-family calendar row after the merge date, the
result carries at most one ACM entry, whose date is after the merge. -/
theorem c7_upcoming_after_merge_witness :
    (getUpcomingGAVersions [⟨"2.14.1", "2.9.1", some 100, true⟩]
        "release-ocm-2.14" (some 50)).countP (fun x => x.product = ProductACM) ≤ 1 ∧
    (∀ x ∈ getUpcomingGAVersions [⟨"2.14.1", "2.9.1", some 100, true⟩]
        "release-ocm-2.14" (some 50), ∃ d, x.gaDate = some d ∧ 50 < d) :=
  ⟨((c7_upcoming_after_merge [⟨"2.14.1", "2.9.1", some 100, true⟩]
      "release-ocm-2.14" (some 50)).2 50 rfl).1.1,
   ((c7_upcoming_after_merge [⟨"2.14.1", "2.9.1", some 100, true⟩]
      "release-ocm-2.14" (some 50)).2 50 rfl).2.1⟩

end PrBot
